import Mathlib

/-!
Verification of the Nuxt dev-server monitor (menu-bar command).

We give a shallow embedding of the discovery/correlation core of the
extension: the lsof output parser, the ps-based process classifier, the
project resolver (directory inference via an ordered list of regex
patterns, lsof fallback, manifest and git-config reads, resource
sampling) and the correlation store reconcile step performed by the
effect hook of the command.

JavaScript strings are modelled as Lean Strings (lists of characters);
the handful of regexes used by the source are modelled by a small
backtracking matcher with JS semantics (leftmost match, greedy and lazy
quantifiers).  Fallible external calls (execSync, readFileSync,
JSON.parse) are modelled as an environment of Except-valued oracles.
-/

namespace NuxtMonitor

/-- JS whitespace: the character class matched by the regex class backslash-s
and trimmed by String.prototype.trim. -/
def jsWs (c : Char) : Bool :=
  let n := c.toNat
  decide (n = 32) || decide (n = 9) || decide (n = 10) || decide (n = 13) ||
  decide (n = 11) || decide (n = 12) || decide (n = 0xa0) ||
  decide (n = 0x1680) || (decide (0x2000 ≤ n) && decide (n ≤ 0x200a)) ||
  decide (n = 0x2028) || decide (n = 0x2029) || decide (n = 0x202f) ||
  decide (n = 0x205f) || decide (n = 0x3000) || decide (n = 0xfeff)

/-- Decimal digit, the regex class backslash-d. -/
def isDigitChar (c : Char) : Bool := c.isDigit

/-- Models JS String.prototype.trim. -/
def jsTrim (s : String) : String :=
  String.mk (((s.data.dropWhile jsWs).reverse.dropWhile jsWs).reverse)

/-- Worker for jsSplitWs.  The Bool flag records whether we are currently
inside a whitespace run (in which case the accumulator is empty). -/
def splitWsGo : List Char → List Char → Bool → List (List Char)
  | [], cur, false => [cur.reverse]
  | [], _, true => [[]]
  | c :: cs, cur, false =>
    if jsWs c then cur.reverse :: splitWsGo cs [] true else splitWsGo cs (c :: cur) false
  | c :: cs, _, true =>
    if jsWs c then splitWsGo cs [] true else splitWsGo cs [c] false

/-- Models JS s.split on a whitespace-run regex: splits at every maximal
whitespace run; a leading (resp. trailing) run produces a leading
(resp. trailing) empty piece, and the empty string yields one empty piece. -/
def jsSplitWs (s : String) : List String :=
  (splitWsGo s.data [] false).map String.mk

/-- Worker for splitLines. -/
def splitNLGo : List Char → List Char → List String
  | [], cur => [String.mk cur.reverse]
  | c :: cs, cur =>
    if c = '\n' then String.mk cur.reverse :: splitNLGo cs [] else splitNLGo cs (c :: cur)

/-- Models JS s.split with separator a newline character. -/
def splitLines (s : String) : List String := splitNLGo s.data []

/-- Does pat occur as a prefix of cs? -/
def substrAt : List Char → List Char → Bool
  | [], _ => true
  | _ :: _, [] => false
  | a :: as, b :: bs => if a = b then substrAt as bs else false

/-- Worker for jsIncludes: does pat occur as a prefix of some suffix? -/
def inclGo (pat : List Char) : List Char → Bool
  | [] => substrAt pat []
  | c :: cs => substrAt pat (c :: cs) || inclGo pat cs

/-- Models JS String.prototype.includes: substring containment. -/
def jsIncludes (s pat : String) : Bool := inclGo pat.data s.data

/-- Models JS String.prototype.toLowerCase (ASCII range; the keywords the
source compares against are all ASCII). -/
def jsToLower (s : String) : String := String.mk (s.data.map Char.toLower)

/-- A discovered candidate server, as pushed by the nuxtProcesses memo. -/
structure NuxtProcess where
  pid : String
  port : String
  command : String
deriving Repr, DecidableEq

/-- The scan of ps-table lines in the nuxtProcesses memo: the first line
that contains the pid (as a substring, psLine.includes) and whose
lowercase form contains one of the keywords nuxt, nuxi, nitro. -/
def findNuxtLine (pid : String) : List String → Option String
  | [] => none
  | l :: ls =>
    if jsIncludes l pid then
      if jsIncludes (jsToLower l) "nuxt" || jsIncludes (jsToLower l) "nuxi" ||
          jsIncludes (jsToLower l) "nitro" then
        some l
      else findNuxtLine pid ls
    else findNuxtLine pid ls

/-- The classifier step of the nuxtProcesses memo: given the raw ps output
(psData, none when the hook has produced no data; the empty string is
falsy in JS and takes the same branch), a candidate pid and its port,
decide isNuxt and the display command.  When a matching ps line is found
the command is formed of the tokens of the line from index 10 on, joined by spaces;
otherwise the generic placeholder is kept. -/
def classifyPs (psData : Option String) (pid port : String) : Bool × String :=
  match psData with
  | none => (true, "Node.js server on port " ++ port)
  | some s =>
    if s = "" then (true, "Node.js server on port " ++ port)
    else
      match findNuxtLine pid (splitLines s) with
      | some l => (true, String.intercalate " " ((jsSplitWs l).drop 10))
      | none => (false, "Node.js server on port " ++ port)

/-- The leftmost match of the regex colon-followed-by-digits against cs,
returning the captured digit run: scan for the first colon that is
immediately followed by a digit and take the maximal digit run there. -/
def firstColonDigits : List Char → Option String
  | [] => none
  | c :: cs =>
    if c = ':' then
      match cs.takeWhile isDigitChar with
      | [] => firstColonDigits cs
      | d :: ds => some (String.mk (d :: ds))
    else firstColonDigits cs

/-- Parsing of one lsof output line (lines 166-176 of the source): trim,
split on whitespace runs, require at least two fields, take the pid from
field 0 and extract the port from field 1 via the first
colon-followed-by-digits occurrence; otherwise skip the line. -/
def parseLsofLine (line : String) : Option (String × String) :=
  match jsSplitWs (jsTrim line) with
  | p0 :: p1 :: _ =>
    match firstColonDigits p1.data with
    | some port => some (p0, port)
    | none => none
  | _ => none

/-- The loop body of the nuxtProcesses memo over the parsed lsof lines:
skip malformed lines, classify the rest, and push a NuxtProcess for each
candidate classified as Nuxt. -/
def buildProcs (psData : Option String) : List String → List NuxtProcess
  | [] => []
  | l :: ls =>
    match parseLsofLine l with
    | none => buildProcs psData ls
    | some (pid, port) =>
      match classifyPs psData pid port with
      | (true, command) => ⟨pid, port, command⟩ :: buildProcs psData ls
      | (false, _) => buildProcs psData ls

/-- The nuxtProcesses memo (lines 154-215 of the source): empty output or
no lsof data yields no processes; otherwise the trimmed output is split
into lines, blank lines are dropped, and each remaining line is parsed
and classified. -/
def nuxtProcesses (lsofData psData : Option String) : List NuxtProcess :=
  match lsofData with
  | none => []
  | some d =>
    if jsTrim d = "" then []
    else
      buildProcs psData ((splitLines (jsTrim d)).filter (fun l => jsTrim l ≠ ""))

/-! ### A small backtracking regex matcher

The source uses a handful of JS regexes built from literals, the classes
dot (any char except a line terminator), bracketed backslash-s backslash-S
(any char), backslash-s and its complement, the greedy quantifiers + and *,
and the lazy quantifier *? — always applied to a single-character class.
We model exactly these with JS backtracking semantics: leftmost match
wins, greedy quantifiers try the longest extent first, lazy ones the
shortest. -/

/-- A single-character regex atom. -/
inductive RAtom where
  /-- The dot: any char except a line terminator. -/
  | anyNoNL
  /-- The class containing both backslash-s and backslash-S: any char. -/
  | anyAll
  /-- The class backslash-s. -/
  | ws
  /-- The complement of backslash-s. -/
  | nonws
  /-- A literal character. -/
  | lit (c : Char)
deriving Repr, DecidableEq

/-- Whether an atom matches a character. -/
def RAtom.matches : RAtom → Char → Bool
  | .anyNoNL, c =>
    !(decide (c.toNat = 10) || decide (c.toNat = 13) ||
      decide (c.toNat = 0x2028) || decide (c.toNat = 0x2029))
  | .anyAll, _ => true
  | .ws, c => jsWs c
  | .nonws, c => !jsWs c
  | .lit a, c => decide (a = c)

/-- Regexes over atoms, with greedy and lazy quantifiers restricted to
atoms (which is all the patterns of the source need). -/
inductive Re where
  | eps
  | atom (a : RAtom)
  | cat (r1 r2 : Re)
  /-- Lazy star: the quantifier * followed by the question mark. -/
  | starL (a : RAtom)
  /-- Greedy star. -/
  | starG (a : RAtom)
  /-- Greedy plus. -/
  | plusG (a : RAtom)
deriving Repr

/-- Literal string as a regex. -/
def Re.str (s : String) : Re :=
  s.data.foldr (fun c r => .cat (.atom (.lit c)) r) .eps

/-- Lazy star matching: try the continuation first, then consume one
character and repeat. -/
def matchLazy {α : Type} (a : RAtom) (k : List Char → Option α) :
    List Char → Option α
  | [] => k []
  | c :: cs2 =>
    match k (c :: cs2) with
    | some x => some x
    | none => if a.matches c then matchLazy a k cs2 else none

/-- Greedy star matching: consume as much as possible first, backtracking
to shorter extents when the continuation fails. -/
def matchGreedy {α : Type} (a : RAtom) (k : List Char → Option α) :
    List Char → Option α
  | [] => k []
  | c :: cs2 =>
    if a.matches c then
      match matchGreedy a k cs2 with
      | some x => some x
      | none => k (c :: cs2)
    else k (c :: cs2)

/-- Continuation-passing matcher: does re match some prefix of cs such
that the continuation accepts the rest?  The first answer found in JS
backtracking order is returned. -/
def Re.matchC {α : Type} : Re → List Char → (List Char → Option α) → Option α
  | .eps, cs, k => k cs
  | .atom a, cs, k =>
    match cs with
    | [] => none
    | c :: cs2 => if a.matches c then k cs2 else none
  | .cat r1 r2, cs, k => r1.matchC cs (fun cs2 => r2.matchC cs2 k)
  | .starL a, cs, k => matchLazy a k cs
  | .starG a, cs, k => matchGreedy a k cs
  | .plusG a, cs, k =>
    match cs with
    | [] => none
    | c :: cs2 => if a.matches c then matchGreedy a k cs2 else none

/-- A pattern with one capturing group: a prefix regex, the captured
regex, and a suffix regex. -/
structure CapPattern where
  pre : Re
  cap : Re
  post : Re

/-- Match a capturing pattern at the start of cs, returning the text
consumed by the capturing group of the first match in backtracking
order. -/
def CapPattern.matchAt (p : CapPattern) (cs : List Char) : Option String :=
  p.pre.matchC cs (fun cs1 =>
    p.cap.matchC cs1 (fun cs2 =>
      p.post.matchC cs2 (fun _ =>
        some (String.mk (cs1.take (cs1.length - cs2.length))))))

/-- Worker for CapPattern.exec: try each start position left to right. -/
def capExecGo (p : CapPattern) : List Char → Option String
  | [] => p.matchAt []
  | c :: cs =>
    match p.matchAt (c :: cs) with
    | some x => some x
    | none => capExecGo p cs

/-- Models JS String.prototype.match against a pattern with one group:
the text of the group of the leftmost match, or none. -/
def CapPattern.exec (p : CapPattern) (s : String) : Option String :=
  capExecGo p s.data

/-- Pattern 1 of nuxtPatterns: node, whitespace, captured non-space run,
the literal /node_modules/, lazily anything, nuxt, lazily anything,
whitespace, dev. -/
def nuxtPattern1 : CapPattern :=
  ⟨.cat (Re.str "node") (.plusG .ws),
   .plusG .nonws,
   .cat (Re.str "/node_modules/") (.cat (.starL .anyNoNL) (.cat (Re.str "nuxt")
     (.cat (.starL .anyNoNL) (.cat (.plusG .ws) (Re.str "dev")))))⟩

/-- Pattern 2 of nuxtPatterns: node, whitespace, captured non-space run
ending in a slash, then the literal .nuxt/dev. -/
def nuxtPattern2 : CapPattern :=
  ⟨.cat (Re.str "node") (.plusG .ws),
   .cat (.plusG .nonws) (.atom (.lit '/')),
   Re.str ".nuxt/dev"⟩

/-- Pattern 3 of nuxtPatterns: npx, whitespace, nuxi, lazily anything,
whitespace, -C, whitespace, captured non-space run. -/
def nuxtPattern3 : CapPattern :=
  ⟨.cat (Re.str "npx") (.cat (.plusG .ws) (.cat (Re.str "nuxi")
     (.cat (.starL .anyNoNL) (.cat (.plusG .ws) (.cat (Re.str "-C") (.plusG .ws)))))),
   .plusG .nonws,
   .eps⟩

/-- Pattern 4 of nuxtPatterns: npm, whitespace, run, whitespace, dev,
lazily anything, --prefix, whitespace, captured non-space run. -/
def nuxtPattern4 : CapPattern :=
  ⟨.cat (Re.str "npm") (.cat (.plusG .ws) (.cat (Re.str "run")
     (.cat (.plusG .ws) (.cat (Re.str "dev") (.cat (.starL .anyNoNL)
       (.cat (Re.str "--prefix") (.plusG .ws))))))),
   .plusG .nonws,
   .eps⟩

/-- The ordered pattern list nuxtPatterns of getProjectInfo. -/
def nuxtPatterns : List CapPattern :=
  [nuxtPattern1, nuxtPattern2, nuxtPattern3, nuxtPattern4]

/-- Models cwd.replace of a trailing slash by the empty string: the regex
is anchored at the end and the replacement is non-global, so exactly one
trailing slash is removed when present. -/
def stripTrailingSlash (s : String) : String :=
  if s.data ≠ [] ∧ s.data.getLast? = some '/' then String.mk (s.data.dropLast) else s

/-- The pattern loop of getProjectInfo (lines 48-56 of the source): try
the patterns in order; the first whose match has a truthy group 1 sets
cwd to the captured path with a trailing slash stripped. -/
def inferCwdGo : List CapPattern → String → Option String
  | [], _ => none
  | p :: ps, command =>
    match p.exec command with
    | some m => if m ≠ "" then some (stripTrailingSlash m) else inferCwdGo ps command
    | none => inferCwdGo ps command

/-- Step 1 of getProjectInfo: directory inference from the command line. -/
def inferCwd (command : String) : Option String :=
  inferCwdGo nuxtPatterns command

/-! ### The project resolver (getProjectInfo) -/

/-- The value of the manifest repository field as JSON.parse can deliver
it to this code: absent, a string, or an object with an optional url
member. -/
inductive RepoField where
  | undef
  | str (s : String)
  | obj (url : Option String)
deriving Repr, DecidableEq

/-- Truthiness of a repository field value in JS: undefined and the empty
string are falsy; any object is truthy. -/
def RepoField.falsy : RepoField → Bool
  | .undef => true
  | .str s => decide (s = "")
  | .obj _ => false

/-- The manifest fields this code reads from a parsed package.json. -/
structure PkgJson where
  name : Option String
  version : Option String
  repository : RepoField
deriving Repr, DecidableEq

/-- The projectInfo record built by getProjectInfo. -/
structure ProjectInfo where
  name : Option String
  version : Option String
  repository : RepoField
deriving Repr, DecidableEq

/-- The assignment packageJson.repository question-dot url or-else
packageJson.repository: a truthy url member of an object wins, otherwise
the original field value (string, object or undefined) is kept. -/
def repoOf : RepoField → RepoField
  | .undef => .undef
  | .str s => .str s
  | .obj (some u) => if u = "" then .obj (some u) else .str u
  | .obj none => .obj none

/-- The record returned by getProjectInfo: every field optional. -/
structure Details where
  cwd : Option String
  projectInfo : Option ProjectInfo
  memory : Option String
  cpu : Option String
deriving Repr, DecidableEq

/-- The empty details record, returned on every bail-out path. -/
def Details.empty : Details := ⟨none, none, none, none⟩

/-- The environment of external effects getProjectInfo performs, keyed by
the strings the source passes: execSync of the lsof cwd query for a pid,
existsSync and readFileSync for a path, JSON.parse of file text, and
execSync of the ps rss/pcpu query for a pid.  An error value models the
call throwing. -/
structure ResolverEnv where
  lsofCwd : String → Except Unit String
  fsExists : String → Bool
  fsRead : String → Except Unit String
  jsonParse : String → Except Unit PkgJson
  psOut : String → Except Unit String

/-- Truthiness of the cwd variable: undefined (none) or the empty string. -/
def jsFalsyS : Option String → Bool
  | none => true
  | some s => decide (s = "")

/-- The scan of lsof -Fn output lines for the first line starting with n,
whose tail is taken as the working directory. -/
def findCwdLine : List String → Option String
  | [] => none
  | l :: ls =>
    if l.startsWith "n" then some (String.mk (l.data.drop 1)) else findCwdLine ls

/-- Step 2 of getProjectInfo (lines 59-72 of the source): the lsof
fallback, attempted only when the pattern-derived cwd is falsy; a
throwing execSync (failure or timeout) is swallowed and leaves cwd
unchanged. -/
def fallbackCwd (env : ResolverEnv) (pid : String) (cwd0 : Option String) :
    Option String :=
  if jsFalsyS cwd0 then
    match env.lsofCwd pid with
    | .error _ => cwd0
    | .ok out =>
      match findCwdLine (splitLines (jsTrim out)) with
      | some l => some l
      | none => cwd0
  else cwd0

/-- Leading digit run of a list as a Nat. -/
def digitsToNat (ds : List Char) : Nat :=
  ds.foldl (fun n c => n * 10 + (c.toNat - '0'.toNat)) 0

/-- Models JS parseInt with radix 10: skip leading whitespace, optional
sign, maximal digit run; none models NaN. -/
def parseIntJS (s : String) : Option Int :=
  let cs := s.data.dropWhile jsWs
  match cs with
  | '-' :: r =>
    match r.takeWhile isDigitChar with
    | [] => none
    | ds => some (-(digitsToNat ds : Int))
  | '+' :: r =>
    match r.takeWhile isDigitChar with
    | [] => none
    | ds => some (digitsToNat ds)
  | _ =>
    match cs.takeWhile isDigitChar with
    | [] => none
    | ds => some (digitsToNat ds)

/-- Models JS parseFloat on the decimal shapes ps emits: skip leading
whitespace, optional sign, integer digits, optional fraction digits
(floating point is modelled as exact decimal arithmetic; exponents do
not occur in ps pcpu output).  The result is (negative, integer part,
fraction digits); none models NaN. -/
def parseFloatJS (s : String) : Option (Bool × Nat × List Char) :=
  let cs := s.data.dropWhile jsWs
  let sgn : Bool × List Char :=
    match cs with
    | '-' :: r => (true, r)
    | '+' :: r => (false, r)
    | _ => (false, cs)
  let ip := sgn.2.takeWhile isDigitChar
  let rest := sgn.2.dropWhile isDigitChar
  let fr :=
    match rest with
    | '.' :: r2 => r2.takeWhile isDigitChar
    | _ => []
  if ip = [] ∧ fr = [] then none
  else some (sgn.1, digitsToNat ip, fr)

/-- Models Number.prototype.toFixed with one fraction digit on the exact
decimal value: round half toward the larger candidate. -/
def toFixed1 (v : Bool × Nat × List Char) : String :=
  let d1 := match v.2.2 with | [] => 0 | c :: _ => c.toNat - '0'.toNat
  let carry : Nat :=
    match v.2.2.drop 1 with
    | [] => 0
    | c :: _ => if 5 ≤ c.toNat - '0'.toNat then 1 else 0
  let n := v.2.1 * 10 + d1 + carry
  let body := toString (n / 10) ++ "." ++ toString (n % 10)
  if v.1 then "-" ++ body else body

/-- The memory string: parseInt of the rss field in kilobytes, divided by
1024 and rounded half toward positive infinity (Math.round on the exact
value), then formatted with the MB suffix. -/
def memStr (s : String) : String :=
  match parseIntJS s with
  | none => "NaN MB"
  | some k => toString (Int.fdiv (k + 512) 1024) ++ " MB"

/-- The cpu string: parseFloat of the pcpu field, toFixed with one digit,
percent suffix. -/
def cpuStr (s : String) : String :=
  match parseFloatJS s with
  | none => "NaN%"
  | some v => toFixed1 v ++ "%"

/-- The resource sampling step of getProjectInfo (lines 116-131 of the
source): run ps, trim; on a throw or empty output both fields stay
absent; otherwise split on whitespace, drop empty fields, and require at
least two fields. -/
def sampleRes (env : ResolverEnv) (pid : String) : Option String × Option String :=
  match env.psOut pid with
  | .error _ => (none, none)
  | .ok out =>
    let t := jsTrim out
    if t = "" then (none, none)
    else
      match (jsSplitWs t).filter (fun x => x ≠ "") with
      | p0 :: p1 :: _ => (some (memStr p0), some (cpuStr p1))
      | _ => (none, none)

/-- The git-config origin url regex: the literal section header, lazily
anything including newlines, the literal url, greedy whitespace, the
equals sign, greedy whitespace, then a captured non-empty run of
non-newline characters. -/
def gitOriginPattern : CapPattern :=
  ⟨.cat (Re.str "[remote \"origin\"]") (.cat (.starL .anyAll)
     (.cat (Re.str "url") (.cat (.starG .ws) (.cat (Re.str "=") (.starG .ws))))),
   .plusG .anyNoNL,
   .eps⟩

/-- The manifest-reading step of getProjectInfo (lines 79-93): when
package.json exists under cwd, read and parse it; a throw from either
leaves projectInfo absent; otherwise build the record, collapsing the
repository field. -/
def readManifest (env : ResolverEnv) (cwd : String) : Option ProjectInfo :=
  let pkgPath := cwd ++ "/package.json"
  if env.fsExists pkgPath then
    match env.fsRead pkgPath >>= env.jsonParse with
    | .ok pj => some ⟨pj.name, pj.version, repoOf pj.repository⟩
    | .error _ => none
  else none

/-- The git-config fallback of getProjectInfo (lines 96-110): when a
manifest was parsed but its repository field is falsy, read
.git/config under cwd and, when the origin-url regex matches with a
truthy group, store the trimmed capture; any failure leaves the record
unchanged. -/
def gitFallback (env : ResolverEnv) (cwd : String) :
    Option ProjectInfo → Option ProjectInfo
  | none => none
  | some pi =>
    if pi.repository.falsy then
      let gitPath := cwd ++ "/.git/config"
      if env.fsExists gitPath then
        match env.fsRead gitPath with
        | .ok gc =>
          match gitOriginPattern.exec gc with
          | some u =>
            if u ≠ "" then some ⟨pi.name, pi.version, .str (jsTrim u)⟩ else some pi
          | none => some pi
        | .error _ => some pi
      else some pi
    else some pi

/-- The body of getProjectInfo inside its outer try block: pattern
inference, lsof fallback, bail-out on a falsy cwd, manifest read,
git-config fallback, resource sampling.  An error value would model an
uncaught exception escaping the try block. -/
def getProjectInfoBody (env : ResolverEnv) (pid command : String) :
    Except Unit Details :=
  match fallbackCwd env pid (inferCwd command) with
  | none => .ok Details.empty
  | some cwd =>
    if cwd = "" then .ok Details.empty
    else
      let pi := gitFallback env cwd (readManifest env cwd)
      let mc := sampleRes env pid
      .ok ⟨some cwd, pi, mc.1, mc.2⟩

/-- getProjectInfo (lines 32-137 of the source): the body wrapped in the
outer try/catch, whose handler returns the empty record. -/
def getProjectInfo (env : ResolverEnv) (pid command : String) : Details :=
  match getProjectInfoBody env pid command with
  | .ok d => d
  | .error _ => Details.empty

/-! ### Repository-URL normalization (Open GitHub Repo action) -/

/-- Replace the first occurrence of pat in a list by rep (JS
String.prototype.replace with a string pattern). -/
def replFirst (pat rep : List Char) : List Char → List Char
  | [] => if pat = [] then rep else []
  | c :: cs =>
    if substrAt pat (c :: cs) then rep ++ (c :: cs).drop pat.length
    else c :: replFirst pat rep cs

/-- Whether suf is a suffix of s. -/
def endsWithStr (s suf : String) : Bool :=
  substrAt suf.data.reverse s.data.reverse

/-- The URL clean-up of the Open GitHub Repo action (lines 386-393 of the
source): drop a leading git+ scheme prefix, rewrite a leading
git at github.com colon SSH prefix to its https form (replace of the
first occurrence), and drop a trailing .git suffix (an end-anchored,
non-global regex replace). -/
def normalizeRepoUrl (url : String) : String :=
  let u1 := if substrAt "git+".data url.data then String.mk (url.data.drop 4) else url
  let u2 :=
    if substrAt "git@".data u1.data then
      String.mk (replFirst "git@github.com:".data "https://github.com/".data u1.data)
    else u1
  if endsWithStr u2 ".git" then String.mk (u2.data.take (u2.data.length - 4)) else u2

/-! ### The correlation store reconcile step (the useEffect hook) -/

/-- Lookup in the process-details map, modelled as an association list in
insertion order (a JS Map with string keys). -/
def lookupKey : List (String × Details) → String → Option Details
  | [], _ => none
  | (k, v) :: t, x => if x = k then some v else lookupKey t x

/-- Key membership in the map (Map.prototype.has). -/
def hasKey (m : List (String × Details)) (k : String) : Bool :=
  (lookupKey m k).isSome

/-- Membership in the set of active pids (Set.prototype.has). -/
def memStrL : List String → String → Bool
  | [], _ => false
  | x :: xs, y => if y = x then true else memStrL xs y

/-- The second loop of the reconcile effect (lines 257-263 of the
source): for each polled process whose pid is not yet in the map being
built, invoke the resolver and insert the result; the second component
lists the pids for which the resolver was invoked, in order. -/
def addNewDetails (resolve : String → String → Details) :
    List NuxtProcess → List (String × Details) →
    List (String × Details) × List String
  | [], acc => (acc, [])
  | p :: ps, acc =>
    if hasKey acc p.pid then addNewDetails resolve ps acc
    else
      let d := resolve p.pid p.command
      let r := addNewDetails resolve ps (acc ++ [(p.pid, d)])
      (r.1, p.pid :: r.2)

/-- The needsUpdate flag of the reconcile effect (lines 227-242 of the
source): true when some polled pid is missing from the store or some
stored pid is missing from the poll. -/
def needsUpdateB (poll : List NuxtProcess) (store : List (String × Details)) :
    Bool :=
  poll.any (fun p => !hasKey store p.pid) ||
  (store.map (fun e => e.1)).any
    (fun k => !memStrL (poll.map (fun p => p.pid)) k)

/-- One run of the reconcile effect (lines 218-266 of the source): given
the resolver, the polled process list and the current store, return the
store after the effect and the list of pids the resolver was invoked
for.  An empty poll clears a non-empty store without resolution; with a
non-empty poll, when no polled pid is missing from the store and no
stored pid is missing from the poll the store is untouched; otherwise
entries for still-active pids are retained and the resolver runs for
the rest. -/
def reconcile (resolve : String → String → Details) (poll : List NuxtProcess)
    (store : List (String × Details)) :
    List (String × Details) × List String :=
  match poll with
  | [] => (if store.isEmpty then store else [], [])
  | _ :: _ =>
    if needsUpdateB poll store then
      addNewDetails resolve poll
        (store.filter (fun e => memStrL (poll.map (fun p => p.pid)) e.1))
    else (store, [])

/-! ### Auxiliary notions used to state the claims -/

/-- Whether a colon immediately followed by a digit occurs anywhere in the
list: exactly the condition under which the colon-digits regex finds a
match somewhere. -/
def hasColonDigit : List Char → Bool
  | [] => false
  | [_] => false
  | a :: b :: cs =>
    (if a = ':' then isDigitChar b else false) || hasColonDigit (b :: cs)

/-- A trivial resolver, used to instantiate the reconcile theorems. -/
def resolveConst : String → String → Details := fun _ _ => Details.empty

/-- A concrete environment in which the lsof fallback and all filesystem
reads fail while the ps resource query succeeds: used to instantiate the
resolver theorems and exhibit that resource sampling is skipped even
when the ps query would deliver data. -/
def envFail : ResolverEnv :=
  ⟨fun _ => .error (), fun _ => false, fun _ => .error (),
   fun _ => .error (), fun _ => .ok "123456 12.3"⟩

/-! ## Theorems -/

/-! ### Association-list and membership lemmas -/

theorem memStrL_eq_true_iff (l : List String) (x : String) :
    memStrL l x = true ↔ x ∈ l := by
  induction l with
  | nil => simp [memStrL]
  | cons a t ih =>
    by_cases h : x = a <;> simp [memStrL, h, ih]

theorem hasKey_eq_true_iff (m : List (String × Details)) (k : String) :
    hasKey m k = true ↔ k ∈ m.map (fun e => e.1) := by
  induction m with
  | nil => simp [hasKey, lookupKey]
  | cons e t ih =>
    obtain ⟨a, v⟩ := e
    by_cases h : k = a <;> simp [hasKey, lookupKey, h] at ih ⊢
    exact ih

theorem lookupKey_append (m l : List (String × Details)) (k : String)
    (h : hasKey m k = true) : lookupKey (m ++ l) k = lookupKey m k := by
  induction m with
  | nil => simp [hasKey, lookupKey] at h
  | cons e t ih =>
    obtain ⟨a, v⟩ := e
    by_cases hk : k = a
    · simp [lookupKey, hk]
    · simp [hasKey, lookupKey, hk] at h ⊢
      exact ih h

theorem hasKey_append_single (m : List (String × Details)) (a : String)
    (d : Details) (k : String) :
    hasKey (m ++ [(a, d)]) k = (hasKey m k || decide (k = a)) := by
  induction m with
  | nil => by_cases h : k = a <;> simp [hasKey, lookupKey, h]
  | cons e t ih =>
    obtain ⟨b, v⟩ := e
    by_cases h : k = b <;> simp [hasKey, lookupKey, h] at ih ⊢
    exact ih

theorem lookupKey_filter_pos (m : List (String × Details)) (g : String → Bool)
    (k : String) (h : g k = true) :
    lookupKey (m.filter (fun e => g e.1)) k = lookupKey m k := by
  induction m with
  | nil => simp
  | cons e t ih =>
    obtain ⟨a, v⟩ := e
    by_cases hk : k = a
    · subst hk
      simp [List.filter, h, lookupKey]
    · cases hg : g a <;> simp [List.filter, hg, lookupKey, hk, ih]

theorem lookupKey_filter_neg (m : List (String × Details)) (g : String → Bool)
    (k : String) (h : g k = false) :
    lookupKey (m.filter (fun e => g e.1)) k = none := by
  induction m with
  | nil => simp [lookupKey]
  | cons e t ih =>
    obtain ⟨a, v⟩ := e
    by_cases hk : k = a
    · subst hk
      simp [List.filter, h, ih]
    · cases hg : g a <;> simp [List.filter, hg, lookupKey, hk, ih]

theorem hasKey_nil_of_all_false (store : List (String × Details))
    (h : ∀ x, hasKey store x = false) : store = [] := by
  cases store with
  | nil => rfl
  | cons e t =>
    have := h e.1
    simp [hasKey, lookupKey] at this

/-! ### Lemmas about the resolution loop of the reconcile effect -/

theorem addNewDetails_hasKey (f : String → String → Details)
    (ps : List NuxtProcess) :
    ∀ (acc : List (String × Details)) (k : String),
    hasKey (addNewDetails f ps acc).1 k =
      (hasKey acc k || memStrL (ps.map (fun p => p.pid)) k) := by
  induction ps with
  | nil => intro acc k; simp [addNewDetails, memStrL]
  | cons p t ih =>
    intro acc k
    by_cases hacc : hasKey acc p.pid
    · rw [addNewDetails, if_pos hacc, ih]
      by_cases hk : k = p.pid
      · subst hk; simp [memStrL, hacc]
      · simp [List.map_cons, memStrL, hk]
    · rw [addNewDetails, if_neg hacc]
      simp only [ih, hasKey_append_single]
      by_cases hk : k = p.pid
      · subst hk; simp [memStrL]
      · simp [List.map_cons, memStrL, hk]

theorem addNewDetails_lookup (f : String → String → Details)
    (ps : List NuxtProcess) :
    ∀ (acc : List (String × Details)) (k : String), hasKey acc k = true →
    lookupKey (addNewDetails f ps acc).1 k = lookupKey acc k := by
  induction ps with
  | nil => intro acc k _; simp [addNewDetails]
  | cons p t ih =>
    intro acc k hk
    by_cases hacc : hasKey acc p.pid
    · rw [addNewDetails, if_pos hacc]
      exact ih acc k hk
    · rw [addNewDetails, if_neg hacc]
      have h2 : hasKey (acc ++ [(p.pid, f p.pid p.command)]) k = true := by
        rw [hasKey_append_single, hk, Bool.true_or]
      rw [ih _ k h2, lookupKey_append _ _ _ hk]

theorem addNewDetails_calls (f : String → String → Details)
    (ps : List NuxtProcess) :
    ∀ (acc : List (String × Details)) (k : String),
    k ∈ (addNewDetails f ps acc).2 →
    hasKey acc k = false ∧ k ∈ ps.map (fun p => p.pid) := by
  induction ps with
  | nil => intro acc k h; simp [addNewDetails] at h
  | cons p t ih =>
    intro acc k h
    by_cases hacc : hasKey acc p.pid
    · rw [addNewDetails, if_pos hacc] at h
      obtain ⟨h1, h2⟩ := ih acc k h
      exact ⟨h1, by simp [h2]⟩
    · rw [addNewDetails, if_neg hacc] at h
      rcases List.mem_cons.mp h with h | h
      · subst h
        exact ⟨by simpa using hacc, by simp⟩
      · obtain ⟨h1, h2⟩ := ih _ k h
        rw [hasKey_append_single] at h1
        simp only [Bool.or_eq_false_iff] at h1
        exact ⟨h1.1, by simp [h2]⟩

/-- C1: reconcile is idempotent.  For every poll whose set of process ids
equals the set of keys already in the correlation store, the reconcile
step performs no resolution calls (the list of pids the resolver is
invoked for is empty) and leaves the store equal to its previous
value. -/
theorem reconcile_idempotent (resolve : String → String → Details)
    (poll : List NuxtProcess) (store : List (String × Details))
    (h : ∀ x, memStrL (poll.map (fun p => p.pid)) x = hasKey store x) :
    reconcile resolve poll store = (store, []) := by
  match poll with
  | [] =>
    have hs : store = [] :=
      hasKey_nil_of_all_false store (fun x => (h x).symm)
    subst hs
    rfl
  | p :: ps =>
    have hneed : needsUpdateB (p :: ps) store = false := by
      rw [needsUpdateB, Bool.or_eq_false_iff]
      refine ⟨List.any_eq_false.mpr ?_, List.any_eq_false.mpr ?_⟩
      · intro q hq
        have hm : memStrL ((p :: ps).map (fun r => r.pid)) q.pid = true :=
          (memStrL_eq_true_iff _ _).mpr (List.mem_map_of_mem _ hq)
        have hk : hasKey store q.pid = true := by rw [← h q.pid]; exact hm
        simp [hk]
      · intro k hk
        have hks : hasKey store k = true := (hasKey_eq_true_iff _ _).mpr hk
        have hm : memStrL ((p :: ps).map (fun r => r.pid)) k = true :=
          (h k).trans hks
        simp only [List.map_cons] at hm
        simp [hm]
    simp only [reconcile]
    rw [hneed]
    rfl

/-- C2: after every reconcile step the key set of the store equals
exactly the set of pids observed in the poll (so pids absent from the
poll, including the empty-poll case, are removed); every pid present in
both the poll and the previous store keeps its previously resolved
details unchanged; and the resolver is invoked only for pids not
already keyed in the previous store. -/
theorem reconcile_store_spec (resolve : String → String → Details)
    (poll : List NuxtProcess) (store : List (String × Details)) :
    (∀ k, hasKey (reconcile resolve poll store).1 k =
        memStrL (poll.map (fun p => p.pid)) k) ∧
    (∀ k, hasKey store k = true → memStrL (poll.map (fun p => p.pid)) k = true →
        lookupKey (reconcile resolve poll store).1 k = lookupKey store k) ∧
    (∀ k, k ∈ (reconcile resolve poll store).2 → hasKey store k = false) := by
  match poll with
  | [] =>
    refine ⟨?_, ?_, ?_⟩
    · intro k
      cases store with
      | nil => simp [reconcile, hasKey, lookupKey, memStrL]
      | cons e t => simp [reconcile, hasKey, lookupKey, memStrL]
    · intro k _ hmem
      simp [memStrL] at hmem
    · intro k hk
      cases store <;> simp [reconcile] at hk
  | p :: ps =>
    cases hneed : needsUpdateB (p :: ps) store with
    | true =>
      have hrec : reconcile resolve (p :: ps) store =
          addNewDetails resolve (p :: ps)
            (store.filter
              (fun e => memStrL ((p :: ps).map (fun p => p.pid)) e.1)) := by
        simp only [reconcile]
        rw [hneed]
        rfl
      refine ⟨?_, ?_, ?_⟩
      · intro k
        rw [hrec, addNewDetails_hasKey]
        cases hm : memStrL ((p :: ps).map (fun p => p.pid)) k with
        | false =>
          have hf : hasKey
              (store.filter
                (fun e => memStrL ((p :: ps).map (fun p => p.pid)) e.1)) k =
              false := by
            unfold hasKey
            rw [lookupKey_filter_neg store _ k hm]
            rfl
          rw [hf]
          rfl
        | true =>
          simp
      · intro k hk hmem
        rw [hrec]
        have hfp := lookupKey_filter_pos store
          (fun x => memStrL ((p :: ps).map (fun p => p.pid)) x) k hmem
        have hfk : hasKey
            (store.filter
              (fun e => memStrL ((p :: ps).map (fun p => p.pid)) e.1)) k =
            true := by
          unfold hasKey
          rw [hfp]
          exact hk
        rw [addNewDetails_lookup resolve (p :: ps) _ k hfk, hfp]
      · intro k hk
        rw [hrec] at hk
        obtain ⟨h1, h2⟩ := addNewDetails_calls resolve (p :: ps) _ k hk
        cases hsk : hasKey store k with
        | false => rfl
        | true =>
          exfalso
          have hmem : memStrL ((p :: ps).map (fun p => p.pid)) k = true :=
            (memStrL_eq_true_iff _ _).mpr h2
          have hkt : hasKey
              (store.filter
                (fun e => memStrL ((p :: ps).map (fun p => p.pid)) e.1)) k =
              true := by
            unfold hasKey
            rw [lookupKey_filter_pos store _ k hmem]
            exact hsk
          rw [hkt] at h1
          exact Bool.noConfusion h1
    | false =>
      have hrec : reconcile resolve (p :: ps) store = (store, []) := by
        simp only [reconcile]
        rw [hneed]
        rfl
      have hneed2 := hneed
      rw [needsUpdateB, Bool.or_eq_false_iff] at hneed2
      obtain ⟨ha1, ha2⟩ := hneed2
      rw [List.any_eq_false] at ha1 ha2
      refine ⟨?_, ?_, ?_⟩
      · intro k
        rw [hrec]
        show hasKey store k = memStrL ((p :: ps).map (fun p => p.pid)) k
        cases hsk : hasKey store k with
        | true =>
          have hkm : k ∈ store.map (fun e => e.1) :=
            (hasKey_eq_true_iff _ _).mp hsk
          have := ha2 k hkm
          simpa using this
        | false =>
          cases hm : memStrL ((p :: ps).map (fun p => p.pid)) k with
          | false => rfl
          | true =>
            exfalso
            obtain ⟨q, hq, hqk⟩ := List.mem_map.mp ((memStrL_eq_true_iff _ _).mp hm)
            have := ha1 q hq
            rw [hqk, hsk] at this
            simp at this
      · intro k _ _
        rw [hrec]
      · intro k hk
        rw [hrec] at hk
        simp at hk


/-- Witness for C1 at a concrete resolver, poll and store with one
matching pid. -/
theorem reconcile_idempotent_witness :
    reconcile resolveConst [⟨"1", "3000", "cmd"⟩] [("1", Details.empty)] =
      ([("1", Details.empty)], []) :=
  reconcile_idempotent resolveConst [⟨"1", "3000", "cmd"⟩]
    [("1", Details.empty)]
    (fun x => by by_cases h : x = "1" <;> simp [memStrL, hasKey, lookupKey, h])

/-- Witness for C2: the retained entry of a stable pid is looked up
unchanged after a concrete reconcile step. -/
theorem reconcile_store_spec_witness :
    lookupKey (reconcile resolveConst [⟨"7", "3000", "cmd"⟩]
      [("7", Details.empty)]).1 "7" = lookupKey [("7", Details.empty)] "7" :=
  (reconcile_store_spec resolveConst [⟨"7", "3000", "cmd"⟩]
    [("7", Details.empty)]).2.1 "7" (by decide) (by decide)

theorem findNuxtLine_none (pid : String) (ls : List String)
    (h : ∀ l ∈ ls, jsIncludes l pid = false) : findNuxtLine pid ls = none := by
  induction ls with
  | nil => rfl
  | cons l t ih =>
    simp [findNuxtLine, h l (List.mem_cons_self l t),
      ih (fun x hx => h x (List.mem_cons_of_mem l hx))]

/-- C3 (amended): the classifier keys on substring containment of the
pid, not token occurrence.  For every available, non-empty
process-table text none of whose lines contains the target pid as a
substring, the classifier returns no match with the generic placeholder
command; and when the process-table text is entirely unavailable it
returns an optimistic match with the generic placeholder command. -/
theorem classifier_substring_spec :
    (∀ s pid port, s ≠ "" →
      (∀ l ∈ splitLines s, jsIncludes l pid = false) →
      classifyPs (some s) pid port =
        (false, "Node.js server on port " ++ port)) ∧
    (∀ pid port, classifyPs none pid port =
        (true, "Node.js server on port " ++ port)) := by
  constructor
  · intro s pid port hs h
    simp only [classifyPs]
    rw [if_neg hs, findNuxtLine_none pid _ h]
  · intro pid port
    rfl

/-- Counterexample to C3 as stated: the process table "user 1234 nuxt"
has no line containing "123" as a whitespace-delimited token, yet the
classifier (which tests psLine.includes) classifies pid "123" as a
match because "123" is a substring of the token "1234". -/
theorem classifier_token_counterexample :
    memStrL ((jsSplitWs "user 1234 nuxt").filter (fun t => t ≠ "")) "123" =
      false ∧
    (classifyPs (some "user 1234 nuxt") "123" "3000").1 = true :=
  ⟨by decide, by decide⟩

/-- Witness for the amended C3 at a concrete table, pid and port. -/
theorem classifier_substring_spec_witness :
    classifyPs (some "abc def") "zz" "3000" =
      (false, "Node.js server on port " ++ "3000") ∧
    classifyPs none "zz" "3000" =
      (true, "Node.js server on port " ++ "3000") :=
  ⟨classifier_substring_spec.1 "abc def" "zz" "3000" (by decide) (by decide),
   classifier_substring_spec.2 "zz" "3000"⟩

theorem takeWhile_all_append (p : Char → Bool) (l1 l2 : List Char)
    (h : ∀ x ∈ l1, p x = true) :
    (l1 ++ l2).takeWhile p = l1 ++ l2.takeWhile p := by
  induction l1 with
  | nil => simp
  | cons a t ih =>
    have ha := h a (List.mem_cons_self a t)
    simp [List.takeWhile_cons, ha,
      ih (fun x hx => h x (List.mem_cons_of_mem a hx))]

theorem firstColonDigits_cons (c : Char) (cs : List Char) :
    firstColonDigits (c :: cs) =
      if c = ':' then
        match cs.takeWhile isDigitChar with
        | [] => firstColonDigits cs
        | d :: ds => some (String.mk (d :: ds))
      else firstColonDigits cs := rfl

theorem fcd_skip_colon (cs : List Char) (h : cs.takeWhile isDigitChar = []) :
    firstColonDigits (':' :: cs) = firstColonDigits cs := by
  rw [firstColonDigits_cons, if_pos rfl, h]

theorem fcd_skip (c : Char) (cs : List Char) (h : ¬ c = ':') :
    firstColonDigits (c :: cs) = firstColonDigits cs := by
  rw [firstColonDigits_cons, if_neg h]

theorem fcd_hit (cs : List Char) (d : Char) (ds : List Char)
    (h : cs.takeWhile isDigitChar = d :: ds) :
    firstColonDigits (':' :: cs) = some (String.mk (d :: ds)) := by
  rw [firstColonDigits_cons, if_pos rfl, h]

theorem firstColonDigits_none (cs : List Char) (h : hasColonDigit cs = false) :
    firstColonDigits cs = none := by
  induction cs with
  | nil => rfl
  | cons c t ih =>
    cases t with
    | nil =>
      by_cases hc : c = ':'
      · subst hc
        rfl
      · rw [fcd_skip c [] hc]
        rfl
    | cons b r =>
      rw [hasColonDigit, Bool.or_eq_false_iff] at h
      obtain ⟨h1, h2⟩ := h
      by_cases hc : c = ':'
      · subst hc
        rw [if_pos rfl] at h1
        have htw : (b :: r).takeWhile isDigitChar = [] := by
          rw [List.takeWhile_cons, if_neg (by simp [h1])]
        rw [fcd_skip_colon _ htw]
        exact ih h2
      · rw [fcd_skip c _ hc]
        exact ih h2

theorem firstColonDigits_found (ds b : List Char) (hds : ds ≠ [])
    (hdig : ∀ d ∈ ds, isDigitChar d = true)
    (hb : ∀ c ∈ b.head?, isDigitChar c = false) :
    ∀ a : List Char, hasColonDigit a = false →
    firstColonDigits (a ++ ':' :: (ds ++ b)) = some (String.mk ds) := by
  have hbt : b.takeWhile isDigitChar = [] := by
    cases b with
    | nil => rfl
    | cons x r =>
      have hx : isDigitChar x = false := hb x (by simp)
      rw [List.takeWhile_cons, if_neg (by simp [hx])]
  have htw : (ds ++ b).takeWhile isDigitChar = ds := by
    rw [takeWhile_all_append isDigitChar ds b hdig, hbt, List.append_nil]
  have hone : firstColonDigits (':' :: (ds ++ b)) = some (String.mk ds) := by
    cases ds with
    | nil => exact absurd rfl hds
    | cons d ds2 => exact fcd_hit _ d ds2 htw
  intro a
  induction a with
  | nil =>
    intro _
    rw [List.nil_append]
    exact hone
  | cons c a2 ih =>
    intro ha
    have ha2 : hasColonDigit a2 = false := by
      cases a2 with
      | nil => rfl
      | cons y t =>
        rw [hasColonDigit, Bool.or_eq_false_iff] at ha
        exact ha.2
    rw [List.cons_append]
    by_cases hc : c = ':'
    · subst hc
      have htw2 : (a2 ++ ':' :: (ds ++ b)).takeWhile isDigitChar = [] := by
        cases a2 with
        | nil =>
          rw [List.nil_append, List.takeWhile_cons, if_neg (by decide)]
        | cons y t =>
          rw [hasColonDigit, Bool.or_eq_false_iff] at ha
          have h1 := ha.1
          rw [if_pos rfl] at h1
          rw [List.cons_append, List.takeWhile_cons, if_neg (by simp [h1])]
      rw [fcd_skip_colon _ htw2]
      exact ih ha2
    · rw [fcd_skip c _ hc]
      exact ih ha2

/-- C4 (amended): the port is extracted from the first (leftmost)
colon-followed-by-digits occurrence in the address field, which
coincides with the trailing colon-digits suffix only when no earlier
such occurrence exists; lines with fewer than two fields, and lines
whose address has no colon-followed-by-digit occurrence at all, are
skipped without producing a candidate. -/
theorem parseLsofLine_spec :
    (∀ line, (jsSplitWs (jsTrim line)).length < 2 → parseLsofLine line = none) ∧
    (∀ line p0 p1 rest, jsSplitWs (jsTrim line) = p0 :: p1 :: rest →
      hasColonDigit p1.data = false → parseLsofLine line = none) ∧
    (∀ line p0 p1 rest a ds b, jsSplitWs (jsTrim line) = p0 :: p1 :: rest →
      p1.data = a ++ ':' :: (ds ++ b) → ds ≠ [] →
      (∀ d ∈ ds, isDigitChar d = true) → hasColonDigit a = false →
      (∀ c ∈ b.head?, isDigitChar c = false) →
      parseLsofLine line = some (p0, String.mk ds)) := by
  refine ⟨?_, ?_, ?_⟩
  · intro line hlen
    rcases hsp : jsSplitWs (jsTrim line) with _ | ⟨t, tl⟩
    · simp [parseLsofLine, hsp]
    · cases tl with
      | nil => simp [parseLsofLine, hsp]
      | cons u r =>
        rw [hsp] at hlen
        simp at hlen
        omega
  · intro line p0 p1 rest hsp h
    simp [parseLsofLine, hsp, firstColonDigits_none p1.data h]
  · intro line p0 p1 rest a ds b hsp hdec hds hdig ha hb
    have hfc := firstColonDigits_found ds b hds hdig hb a ha
    rw [← hdec] at hfc
    simp [parseLsofLine, hsp, hfc]

/-- Counterexample to C4 as stated: the address field "x:1:22" has the
trailing colon-digits suffix ":22", yet the parser extracts port "1"
from the first colon-digits occurrence. -/
theorem parseLsofLine_trailing_counterexample :
    parseLsofLine "12 x:1:22" = some ("12", "1") ∧
    "x:1:22".data = "x:1".data ++ ':' :: ("22".data ++ []) ∧
    (∀ d ∈ "22".data, isDigitChar d = true) ∧
    ("1" : String) ≠ "22" :=
  ⟨by decide, by decide, by decide, by decide⟩

/-- Witness for the amended C4 at a concrete well-formed line. -/
theorem parseLsofLine_spec_witness :
    parseLsofLine "12 localhost:3000" = some ("12", String.mk "3000".data) :=
  parseLsofLine_spec.2.2 "12 localhost:3000" "12" "localhost:3000" []
    "localhost".data "3000".data [] (by decide) (by decide) (by decide)
    (by decide) (by decide) (by decide)

/-- C5: directory inference on the command line
node /home/u/app/node_modules/.bin/nuxt dev returns /home/u/app: the
ordered pattern list is tried in sequence (the first,
framework-build-output pattern matches here), the captured path of the
first matching rule wins, and a trailing path separator would be
stripped from the capture. -/
theorem inferCwd_node_modules_example :
    inferCwd "node /home/u/app/node_modules/.bin/nuxt dev" =
      some "/home/u/app" := by decide

/-- Counterexample to C6 as stated: the command line "foo -C /srv/proj"
contains the flag and argument -C /srv/proj, yet directory inference
returns nothing, because the -C rule only matches npx nuxi
invocations. -/
theorem inferCwd_dashC_counterexample :
    List.IsInfix "-C /srv/proj".data "foo -C /srv/proj".data ∧
    inferCwd "foo -C /srv/proj" = none :=
  ⟨⟨"foo ".data, [], by decide⟩, by decide⟩

/-- C6 (amended): for a command line invoking npx nuxi with the flag and
argument -C /srv/proj (or -C /srv/proj/), directory inference returns
/srv/proj with no trailing slash; without an npx nuxi invocation the -C
flag is not consulted. -/
theorem inferCwd_npx_nuxi_dashC :
    inferCwd "npx nuxi dev -C /srv/proj" = some "/srv/proj" ∧
    inferCwd "npx nuxi dev -C /srv/proj/" = some "/srv/proj" :=
  ⟨by decide, by decide⟩

/-- C7: repository-URL normalization at action time maps the git+ https
form and the SSH form of a GitHub URL to the browsable https URL: the
git+ scheme prefix is stripped, the SSH host prefix is rewritten to its
https equivalent, and the trailing .git suffix is removed. -/
theorem normalizeRepoUrl_examples :
    normalizeRepoUrl "git+https://github.com/a/b.git" =
      "https://github.com/a/b" ∧
    normalizeRepoUrl "git@github.com:a/b.git" = "https://github.com/a/b" :=
  ⟨by decide, by decide⟩

/-- C8: whenever the lsof scan delivers no data or only whitespace, the
scan yields the empty candidate list (and, the embedding being a total
function, no error). -/
theorem nuxtProcesses_empty_on_no_output (lsofData psData : Option String)
    (h : lsofData = none ∨ ∃ s, lsofData = some s ∧ jsTrim s = "") :
    nuxtProcesses lsofData psData = [] := by
  rcases h with h | ⟨s, hs, ht⟩
  · subst h
    rfl
  · subst hs
    simp [nuxtProcesses, ht]

/-- Witness for C8 on concrete whitespace-only output. -/
theorem nuxtProcesses_empty_witness :
    nuxtProcesses (some " \n\t ") (some "x") = [] :=
  nuxtProcesses_empty_on_no_output (some " \n\t ") (some "x")
    (Or.inr ⟨" \n\t ", rfl, by decide⟩)

theorem getProjectInfoBody_isOk (env : ResolverEnv) (pid command : String) :
    ∃ d, getProjectInfoBody env pid command = .ok d := by
  rcases h : fallbackCwd env pid (inferCwd command) with _ | cwd
  · exact ⟨Details.empty, by simp [getProjectInfoBody, h]⟩
  · by_cases hc : cwd = ""
    · exact ⟨Details.empty, by simp [getProjectInfoBody, h, hc]⟩
    · exact ⟨⟨some cwd, gitFallback env cwd (readManifest env cwd),
        (sampleRes env pid).1, (sampleRes env pid).2⟩,
        by simp [getProjectInfoBody, h, hc]⟩

/-- C9: the project resolver never raises.  For every environment of
external effects (each of which may throw) and every pid and command
line, the body of getProjectInfo completes normally with the value the
function returns — every sub-step handles its own failures — and in the
worst case (no pattern matches and the lsof fallback throws) the result
is the record with every field absent. -/
theorem getProjectInfo_total (env : ResolverEnv) (pid command : String) :
    getProjectInfoBody env pid command =
      .ok (getProjectInfo env pid command) ∧
    (inferCwd command = none → env.lsofCwd pid = .error () →
      getProjectInfo env pid command = Details.empty) := by
  obtain ⟨d, hd⟩ := getProjectInfoBody_isOk env pid command
  constructor
  · rw [hd, getProjectInfo, hd]
  · intro h1 h2
    have hf : fallbackCwd env pid (inferCwd command) = none := by
      rw [h1]
      simp [fallbackCwd, jsFalsyS, h2]
    rw [getProjectInfo]
    simp [getProjectInfoBody, hf]

/-- Witness for C9 in an environment where every external call fails. -/
theorem getProjectInfo_total_witness :
    getProjectInfo envFail "1" "bash" = Details.empty :=
  (getProjectInfo_total envFail "1" "bash").2 (by decide) rfl

/-- C10: when directory inference fails (no pattern matches and the lsof
fallback yields nothing truthy), the resolver returns with memory and
cpu absent as well — resource sampling happens only after a working
directory is resolved — even though the environment (universally
quantified here) may answer the ps query successfully. -/
theorem getProjectInfo_no_cwd_no_sampling (env : ResolverEnv)
    (pid command : String) (h1 : inferCwd command = none)
    (h2 : jsFalsyS (fallbackCwd env pid none) = true) :
    getProjectInfo env pid command = Details.empty ∧
    (getProjectInfo env pid command).memory = none ∧
    (getProjectInfo env pid command).cpu = none := by
  have hmain : getProjectInfo env pid command = Details.empty := by
    rcases hf : fallbackCwd env pid none with _ | s
    · rw [getProjectInfo]
      simp [getProjectInfoBody, h1, hf]
    · have hs : s = "" := by
        rw [hf] at h2
        simpa [jsFalsyS] using h2
      subst hs
      rw [getProjectInfo]
      simp [getProjectInfoBody, h1, hf]
  exact ⟨hmain, by rw [hmain]; rfl, by rw [hmain]; rfl⟩


/-- Witness for C10: the environment envFail answers the ps query with
ordinary rss/pcpu data, yet with an unresolvable directory the result
is entirely empty. -/
theorem getProjectInfo_no_cwd_no_sampling_witness :
    envFail.psOut "7" = .ok "123456 12.3" ∧
    getProjectInfo envFail "7" "sh" = Details.empty :=
  ⟨rfl,
   (getProjectInfo_no_cwd_no_sampling envFail "7" "sh" (by decide) rfl).1⟩


end NuxtMonitor
